import Mathlib

/-!
Verification of the reth blockchain-tree and trie-loader core against its
natural-language specification.

The development shallowly embeds the Rust source of
`crates/storage/provider/src/trie/mod.rs` and
`crates/executor/src/blockchain_tree/mod.rs`:

* 256-bit hashes (Rust `H256`) and 256-bit words are modelled as `Nat`;
* database tables are modelled as association lists sorted by key, and
  dup-sorted tables as association lists of sorted subtrees, mirroring the
  MDBX cursor operations (`seek_exact`, `seek_by_key_subkey`, `upsert`,
  `append_dup`, `delete_current`) used by the source;
* the `cita_trie` Patricia trie is abstracted by its content: a trie (and
  hence its root, keccak being collision-free) is identified with the
  canonical sorted association list of the key/value bindings it holds, so
  `trie.insert`/`trie.remove`/`trie.get` become sorted-list operations and
  `PatriciaTrie::from(root)` recovers exactly the persisted bindings, which
  is what the node-persistence plus checkpoint-in-same-transaction scheme of
  the source guarantees;
* fallible external calls that the claims do not depend on (block execution,
  consensus) are abstracted as function parameters.
-/

/-- `keccak256(rlp(""))`, the sentinel root of an empty Patricia trie
(`reth_primitives::proofs::EMPTY_ROOT`). -/
def EMPTY_ROOT : Nat :=
  0x56e81f171bcc55a6ff8345e692c0f86e5b48e01b996cadc001622fb5e363b421

/-- `keccak256("")` (`reth_primitives::KECCAK_EMPTY`). -/
def KECCAK_EMPTY : Nat :=
  0xc5d2460186f7233c927e7db2dcc703c0e500b653ca82273b7bfad8045d85a470

/-! ## Sorting a key/value batch

Both `insert_map` implementations begin with
`kv.sort_by(|a, b| a.0.cmp(&b.0))`, a stable sort by key; we model it as a
stable insertion sort by key. -/

/-- Insert one pair into a key-sorted list, after all pairs of smaller or
equal key (stability of `sort_by`). -/
def insertByKey {α : Type} (p : Nat × α) : List (Nat × α) → List (Nat × α)
  | [] => [p]
  | q :: rest => if q.1 ≤ p.1 then q :: insertByKey p rest else p :: q :: rest

/-- Stable sort of a key/value batch by key: `kv.sort_by(|a, b| a.0.cmp(&b.0))`. -/
def sortByKey {α : Type} (kv : List (Nat × α)) : List (Nat × α) :=
  kv.foldr insertByKey []

theorem mem_insertByKey {α : Type} (p b : Nat × α) (l : List (Nat × α)) :
    b ∈ insertByKey p l ↔ b = p ∨ b ∈ l := by
  induction l with
  | nil => simp [insertByKey]
  | cons q rest ih =>
    simp only [insertByKey]
    by_cases hle : q.1 ≤ p.1
    · simp only [if_pos hle, List.mem_cons, ih]
      tauto
    · simp only [if_neg hle, List.mem_cons]

theorem insertByKey_pairwise {α : Type} (p : Nat × α) (l : List (Nat × α))
    (h : l.Pairwise (fun a b => a.1 ≤ b.1)) :
    (insertByKey p l).Pairwise (fun a b => a.1 ≤ b.1) := by
  induction l with
  | nil => simp [insertByKey]
  | cons q rest ih =>
    simp only [insertByKey]
    rcases List.pairwise_cons.mp h with ⟨hq, hrest⟩
    by_cases hle : q.1 ≤ p.1
    · simp only [if_pos hle]
      refine List.pairwise_cons.mpr ⟨?_, ih hrest⟩
      intro b hb
      rcases (mem_insertByKey p b rest).mp hb with h1 | h2
      · exact h1 ▸ hle
      · exact hq b h2
    · simp only [if_neg hle]
      refine List.pairwise_cons.mpr ⟨?_, h⟩
      intro b hb
      rcases List.mem_cons.mp hb with h1 | h2
      · exact h1 ▸ Nat.le_of_lt (Nat.lt_of_not_le hle)
      · exact Nat.le_trans (Nat.le_of_lt (Nat.lt_of_not_le hle)) (hq b h2)

theorem sortByKey_pairwise {α : Type} (kv : List (Nat × α)) :
    (sortByKey kv).Pairwise (fun a b => a.1 ≤ b.1) := by
  induction kv with
  | nil => simp [sortByKey]
  | cons p rest ih => exact insertByKey_pairwise p _ ih

/-! ## Trie DB adapter models

`AccountsTrie` is a unique-key table `keccak(node) → rlp(node)`, modelled as
a key-sorted association list. `StoragesTrie` is a dup-sorted table
`hashed_account_address → StorageTrieEntry { hash, node }`, each subtree
sorted by `hash`. Node bytes are modelled as `List Nat`. -/

/-- Raw node bytes. -/
abbrev Bytes := List Nat

/-- `reth_primitives::StorageTrieEntry`: one dup entry of `StoragesTrie`. -/
structure StorageTrieEntry where
  hash : Nat
  node : Bytes
deriving DecidableEq, Repr

/-- Cursor `upsert` on a unique-key sorted table: replace the value at the
key if present, otherwise insert at the sorted position. -/
def upsertSorted {α : Type} (tbl : List (Nat × α)) (k : Nat) (v : α) :
    List (Nat × α) :=
  match tbl with
  | [] => [(k, v)]
  | (k0, v0) :: rest =>
    if k < k0 then (k, v) :: (k0, v0) :: rest
    else if k = k0 then (k, v) :: rest
    else (k0, v0) :: upsertSorted rest k v

/-- Cursor `seek_exact` followed by `delete_current`: remove the entry at
key `k` if present. -/
def deleteKeyExact {α : Type} (tbl : List (Nat × α)) (k : Nat) :
    List (Nat × α) :=
  List.eraseP (fun p => decide (p.1 = k)) tbl

/-- First value stored at key `k` (unique-key table lookup). -/
def lookupKey {α : Type} (tbl : List (Nat × α)) (k : Nat) : Option α :=
  match tbl with
  | [] => none
  | (k0, v0) :: rest => if k0 = k then some v0 else lookupKey rest k

/-- Dup-cursor `seek_by_key_subkey(key, subkey)` within the subtree of one
primary key: lands on the first entry whose `hash` is `≥ subkey`. -/
def seekByKeySubkey (sub : List StorageTrieEntry) (h : Nat) :
    Option StorageTrieEntry :=
  (sub.dropWhile (fun e => decide (e.hash < h))).head?

/-- Dup-cursor `seek_by_key_subkey` + `filter(hash = h)` + `delete_current`:
remove the sought entry when its hash matches exactly. -/
def deleteEntryAt (sub : List StorageTrieEntry) (h : Nat) :
    List StorageTrieEntry :=
  match sub.dropWhile (fun e => decide (e.hash < h)) with
  | [] => sub
  | e :: rest =>
    if e.hash = h then sub.takeWhile (fun e => decide (e.hash < h)) ++ rest
    else sub

/-- Dup-cursor `upsert` of an entry into a subtree (sorted position). -/
def upsertEntry (sub : List StorageTrieEntry) (e : StorageTrieEntry) :
    List StorageTrieEntry :=
  sub.takeWhile (fun x => decide (x.hash < e.hash)) ++
    e :: sub.dropWhile (fun x => decide (x.hash < e.hash))

/-- First entry with hash exactly `h` in a subtree, if any. -/
def lookupEntryHash (sub : List StorageTrieEntry) (h : Nat) : Option StorageTrieEntry :=
  match sub with
  | [] => none
  | e :: rest => if e.hash = h then some e else lookupEntryHash rest h

namespace HashDatabaseMut

/-- `HashDatabaseMut::insert_map` (trie/mod.rs lines 80-88): sort the batch
by key, then `upsert` every pair into `AccountsTrie`. -/
def insert_map (tbl : List (Nat × Bytes)) (kv : List (Nat × Bytes)) :
    List (Nat × Bytes) :=
  (sortByKey kv).foldl (fun t p => upsertSorted t p.1 p.2) tbl

/-- The sequence of `(key, value)` pairs `insert_map` passes to
`cursor.upsert`, in write order: the batch sorted by key, nothing skipped. -/
def insert_map_writes (kv : List (Nat × Bytes)) : List (Nat × Bytes) :=
  sortByKey kv

end HashDatabaseMut

namespace DupHashDatabaseMut

/-- `DupHashDatabaseMut::get` (trie/mod.rs lines 154-162): seek the dup
subtree of `self.key` to the first entry with hash `≥` the requested key,
keep it only if its hash matches exactly, and return its node. -/
def get (sub : List StorageTrieEntry) (k : Nat) : Option Bytes :=
  match seekByKeySubkey sub k with
  | some e => if e.hash = k then some e.node else none
  | none => none

/-- One loop iteration of `DupHashDatabaseMut::insert_map`
(trie/mod.rs lines 182-197): skip `EMPTY_ROOT` keys; in update mode delete
any existing entry with the same hash and `upsert` the new one; in
initial-build mode `append_dup` at the end of the subtree. -/
def insertMapStep (isUpdate : Bool) (sub : List StorageTrieEntry)
    (p : Nat × Bytes) : List StorageTrieEntry :=
  if p.1 = EMPTY_ROOT then sub
  else if isUpdate then upsertEntry (deleteEntryAt sub p.1) ⟨p.1, p.2⟩
  else sub ++ [⟨p.1, p.2⟩]

/-- `DupHashDatabaseMut::insert_map` (trie/mod.rs lines 178-199): sort the
batch by key, then run `insertMapStep` on each pair, over the subtree of
`self.key`. -/
def insert_map (isUpdate : Bool) (sub : List StorageTrieEntry)
    (kv : List (Nat × Bytes)) : List StorageTrieEntry :=
  (sortByKey kv).foldl (insertMapStep isUpdate) sub

/-- The sequence of entries `insert_map` actually writes (via `upsert` or
`append_dup`), in write order: the batch sorted by key with `EMPTY_ROOT`
keys skipped. -/
def insert_map_writes (kv : List (Nat × Bytes)) : List (Nat × Bytes) :=
  (sortByKey kv).filter (fun p => decide (p.1 ≠ EMPTY_ROOT))

end DupHashDatabaseMut

namespace DBTrieLoader

/-- `DBTrieLoader::replace_account_root` (trie/mod.rs lines 851-866) acting
on the `AccountsTrie` table: `new_root` is the value `trie.root()` returned
(node persistence of the trie commit is part of the prior table state).
If it differs from `previous_root`, `seek_exact(previous_root)` and
`delete_current` the stale root node. Returns the new root and the table. -/
def replace_account_root (tbl : List (Nat × Bytes)) (new_root previous_root : Nat) :
    Nat × List (Nat × Bytes) :=
  if new_root ≠ previous_root then (new_root, deleteKeyExact tbl previous_root)
  else (new_root, tbl)

/-- `DBTrieLoader::replace_storage_root` (trie/mod.rs lines 869-888) acting
on the `StoragesTrie` subtree of `address`: when the new root differs from
`previous_root` and the latter is not `EMPTY_ROOT`, seek the subtree for
`previous_root` and delete the entry when the hash matches exactly. -/
def replace_storage_root (sub : List StorageTrieEntry) (new_root previous_root : Nat) :
    Nat × List StorageTrieEntry :=
  if new_root ≠ previous_root ∧ previous_root ≠ EMPTY_ROOT then
    (new_root, deleteEntryAt sub previous_root)
  else (new_root, sub)

/-- `replace_storage_root` on the whole dup table: the cursor is scoped to
the dup subtree of `address`, so only that subtree is rewritten. -/
def replace_storage_root_table (tbl : List (Nat × List StorageTrieEntry))
    (address : Nat) (new_root previous_root : Nat) :
    Nat × List (Nat × List StorageTrieEntry) :=
  (new_root,
    tbl.map (fun p =>
      if p.1 = address then (p.1, (replace_storage_root p.2 new_root previous_root).2)
      else p))

end DBTrieLoader

/-! ## Blockchain tree model

From `crates/executor/src/blockchain_tree/mod.rs`. The `BlockIndices`
structure lives in `block_indices.rs` (declared but not part of the sources
at hand); its fields and simple getters are modelled from the spec (§3,
§4.C). Chain contents (`chain.rs`) are abstracted by a type parameter, and
the executing subroutines `fork_side_chain` / `fork_canonical_chain` /
the promotion body of `make_canonical` — which call the external executor,
consensus and database providers — are abstracted as function parameters. -/

/-- Errors of `reth_interfaces::executor::Error` used by the tree. -/
inductive ExecError where
  | pendingBlockIsFinalized (blockNumber blockHash lastFinalized : Nat)
  | pendingBlockIsInFuture (blockNumber blockHash lastFinalized : Nat)
  | blockHashNotFoundInChain (blockHash : Nat)
  | chainIdConsistency (chainId : Nat)
  | canonicalChain (blockHash : Nat)
  | senderRecoveryError
  | verificationFailed
deriving DecidableEq, Repr

/-- The header data of `SealedBlockWithSenders` that the tree's admission
logic reads: number, own hash, parent hash. -/
structure SealedBlockWithSenders where
  number : Nat
  hash : Nat
  parentHash : Nat
deriving DecidableEq, Repr

/-- Modelled from the spec (§3): `BlockIndices` consists of
`blocks_to_chain : map<hash, ChainId>`, `fork_to_child`,
`canonical_chain : ordered_map<number, hash>` and `last_finalized_block`.
(`block_indices.rs` is not among the sources at hand.) -/
structure BlockIndices where
  blocksToChain : List (Nat × Nat)
  forkToChild : List (Nat × List Nat)
  canonicalChain : List (Nat × Nat)
  lastFinalizedBlock : Nat
deriving DecidableEq, Repr

/-- Modelled from the spec (§4.C): `get_blocks_chain_id(hash) → Option<ChainId>`,
a lookup in `blocks_to_chain`. -/
def BlockIndices.getBlocksChainId (bi : BlockIndices) (h : Nat) : Option Nat :=
  lookupKey bi.blocksToChain h

/-- Modelled from the spec (§4.C): `canonical_hash(number) → Option<hash>`,
a lookup in the canonical window. -/
def BlockIndices.canonicalHash (bi : BlockIndices) (n : Nat) : Option Nat :=
  lookupKey bi.canonicalChain n

/-- Modelled from the spec (§3): `contains_block_hash` — every pending block
hash lives in `blocks_to_chain`. -/
def BlockIndices.containsBlockHash (bi : BlockIndices) (h : Nat) : Bool :=
  (lookupKey bi.blocksToChain h).isSome

/-- Modelled from the spec (§4.C): `is_block_hash_canonical(hash)` — the hash
appears in the in-memory canonical window. -/
def BlockIndices.isBlockHashCanonical (bi : BlockIndices) (h : Nat) : Bool :=
  bi.canonicalChain.any (fun p => decide (p.2 = h))

/-- `BlockchainTree` (blockchain_tree/mod.rs lines 61-75); chain contents are
abstracted by the type parameter `Ch`. -/
structure BlockchainTree (Ch : Type) where
  chains : List (Nat × Ch)
  chainIdGenerator : Nat
  blockIndices : BlockIndices
  numOfSideChainMaxSize : Nat
  finalizationWindow : Nat

/-- A state-transforming subroutine of the tree that may fail: it returns the
result together with the (possibly mutated) tree, as the Rust methods mutate
`self` in place. -/
abbrev TreeStep (Ch α : Type) := Except ExecError α × BlockchainTree Ch

/-- `BlockchainTree::insert_block_with_senders`
(blockchain_tree/mod.rs lines 302-357). The ordered checks mirror the
source; `forkSideChain` (lines 149-203) and `forkCanonicalChain`
(lines 206-235), which execute the block via the external executor, are
taken as parameters. -/
def insertBlockWithSenders {Ch : Type}
    (forkSideChain : BlockchainTree Ch → SealedBlockWithSenders → Nat → TreeStep Ch Unit)
    (forkCanonicalChain : BlockchainTree Ch → SealedBlockWithSenders → TreeStep Ch Unit)
    (t : BlockchainTree Ch) (block : SealedBlockWithSenders) : TreeStep Ch Bool :=
  let lastFinalized := t.blockIndices.lastFinalizedBlock
  if block.number ≤ lastFinalized then
    (.error (.pendingBlockIsFinalized block.number block.hash lastFinalized), t)
  else if lastFinalized + t.numOfSideChainMaxSize < block.number then
    (.error (.pendingBlockIsInFuture block.number block.hash lastFinalized), t)
  else if t.blockIndices.containsBlockHash block.hash then
    (.ok true, t)
  else if t.blockIndices.canonicalHash block.number = some block.hash then
    (.ok true, t)
  else
    match t.blockIndices.getBlocksChainId block.parentHash with
    | some parentChain =>
      match forkSideChain t block parentChain with
      | (.ok _, t') => (.ok true, t')
      | (.error e, t') => (.error e, t')
    | none =>
      if t.blockIndices.canonicalHash (block.number - 1) = some block.parentHash then
        match forkCanonicalChain t block with
        | (.ok _, t') => (.ok true, t')
        | (.error e, t') => (.error e, t')
      else
        (.ok false, t)

/-- The guard under which `insert_block_with_senders` evaluates the `u64`
subtraction `block.number - 1` (blockchain_tree/mod.rs line 347): every
earlier check has fallen through and the parent is in no tree chain. -/
def reachesCanonicalParentLookup {Ch : Type} (t : BlockchainTree Ch)
    (block : SealedBlockWithSenders) : Prop :=
  t.blockIndices.lastFinalizedBlock < block.number ∧
  block.number ≤ t.blockIndices.lastFinalizedBlock + t.numOfSideChainMaxSize ∧
  ¬ t.blockIndices.containsBlockHash block.hash ∧
  t.blockIndices.canonicalHash block.number ≠ some block.hash ∧
  t.blockIndices.getBlocksChainId block.parentHash = none

/-- `BlockchainTree::make_canonical` (blockchain_tree/mod.rs lines 404-479).
Lines 404-413 are mirrored exactly; the promotion body (lines 414-478),
which splits and commits chains through `chain.rs`, `block_indices.rs` and
the database, is abstracted as the `promote` parameter. -/
def makeCanonical {Ch : Type}
    (promote : BlockchainTree Ch → Nat → Nat → TreeStep Ch Unit)
    (t : BlockchainTree Ch) (blockHash : Nat) : TreeStep Ch Unit :=
  match t.blockIndices.getBlocksChainId blockHash with
  | some chainId => promote t blockHash chainId
  | none =>
    if t.blockIndices.isBlockHashCanonical blockHash then (.ok (), t)
    else (.error (.blockHashNotFoundInChain blockHash), t)

/-! ## Trie loader model

The Patricia tries are modelled by their content: a trie — and hence its
root, keccak being collision-free — is identified with the canonical
key-sorted association list of its bindings. `trie.insert` is `upsertSorted`,
`trie.remove` is `deleteKeyExact`, `trie.get` is `lookupKey`, and
`PatriciaTrie::from(root)` recovers the bindings persisted for that root
(the source persists the nodes and the checkpoint in the same transaction).
`replace_account_root` / `replace_storage_root` return the new root
unchanged and only garbage-collect the stale root node (modelled above on
the tables), so they are the identity on the returned root value. -/

namespace DBTrieLoader

/-- `reth_primitives::Account`, the value type of `HashedAccount`. -/
structure Account where
  nonce : Nat
  balance : Nat
  bytecode_hash : Option Nat
deriving DecidableEq, Repr

/-- A storage-trie root, identified with the trie's content:
`hashed storage key → stored value`. The empty list is `EMPTY_ROOT`. -/
abbrev StRoot := List (Nat × Nat)

/-- `EthAccount` (trie/mod.rs lines 361-370), with the storage root in
content form. -/
structure EthAccount where
  nonce : Nat
  balance : Nat
  storage_root : StRoot
  code_hash : Nat
deriving DecidableEq, Repr

/-- `impl From<Account> for EthAccount` (trie/mod.rs lines 372-381). -/
def EthAccount.fromAccount (acc : Account) : EthAccount :=
  { nonce := acc.nonce, balance := acc.balance, storage_root := [],
    code_hash := acc.bytecode_hash.getD KECCAK_EMPTY }

/-- `EthAccount::with_storage_root` (trie/mod.rs lines 385-388). -/
def EthAccount.with_storage_root (e : EthAccount) (r : StRoot) : EthAccount :=
  { e with storage_root := r }

/-- An account-trie root, identified with the trie's content:
`hashed address → EthAccount leaf`. -/
abbrev AccRoot := List (Nat × EthAccount)

/-- `reth_primitives::ProofCheckpoint`, with roots in content form. -/
structure ProofCheckpoint where
  account_root : Option AccRoot := none
  hashed_address : Option Nat := none
  storage_root : Option StRoot := none
  storage_key : Option Nat := none
deriving DecidableEq, Repr

/-- Progress of `calculate_storage_root` / `update_storage_root`: the
`InProgress` payload carries the `storage_root` and `storage_key` checkpoint
fields the source would set. -/
inductive StorageProgress where
  | complete (root : StRoot)
  | inProgress (storage_root : StRoot) (storage_key : Nat)
deriving DecidableEq, Repr

/-- `TrieProgress` (trie/mod.rs lines 415-420). -/
inductive TrieProgress where
  | complete (root : AccRoot)
  | inProgress (checkpoint : ProofCheckpoint)
deriving DecidableEq, Repr

/-- Dup-cursor exact seek on a sorted `HashedStorage` subtree:
`seek_by_key_subkey(address, key)?.filter(|e| e.key == key)`. -/
def seekExactSorted (es : List (Nat × Nat)) (k : Nat) : Option Nat :=
  match es.dropWhile (fun p => decide (p.1 < k)) with
  | [] => none
  | (k0, v) :: _ => if k0 = k then some v else none

/-- The `while let` loop of `calculate_storage_root`
(trie/mod.rs lines 567-588): insert each slot, advance with `next_dup`,
bump the shared counter (`has_hit_threshold`), and checkpoint between slots
— never after the last — carrying the *next* slot's key. -/
def calc_storage_loop (threshold : Nat) :
    Nat → StRoot → List (Nat × Nat) → StorageProgress × Nat
  | cur, strie, [] => (.complete strie, cur)
  | cur, strie, (k, v) :: rest =>
    let strie' := upsertSorted strie k v
    let cur' := cur + 1
    match rest with
    | [] => (.complete strie', cur')
    | (k2, _) :: _ =>
      if threshold ≤ cur' then (.inProgress strie' k2, cur')
      else calc_storage_loop threshold cur' strie' rest

/-- The slots `calculate_storage_root` will walk: with a checkpoint
(`next_storage = some k`) the dup cursor seeks `k` and is kept only on an
exact hit (`seek_by_key_subkey(address, entry)?.filter(|e| e.key == entry)`,
then `next_dup` to the end); without one it seeks `H256::zero()`, i.e. walks
all slots. -/
def storage_walk_start (es : List (Nat × Nat)) (next_storage : Option Nat) :
    List (Nat × Nat) :=
  match next_storage with
  | some k =>
    match es.dropWhile (fun p => decide (p.1 < k)) with
    | [] => []
    | e :: rest => if e.1 = k then e :: rest else []
  | none => es

/-- `DBTrieLoader::calculate_storage_root` (trie/mod.rs lines 522-596) for
the account whose sorted `HashedStorage` entries are `es`. On a checkpoint
the trie is reopened from `previous_root`; otherwise fresh. No entry at all
(`current_entry.is_none()`) yields `EMPTY_ROOT` (content `[]`). -/
def calculate_storage_root (threshold cur : Nat) (es : List (Nat × Nat))
    (next_storage : Option Nat) (previous_root : Option StRoot) :
    StorageProgress × Nat :=
  match storage_walk_start es next_storage with
  | [] => (.complete [], cur)
  | e :: rest =>
    let strie := if next_storage.isSome then previous_root.getD [] else []
    calc_storage_loop threshold cur strie (e :: rest)

/-- The `while let` loop of `calculate_root` (trie/mod.rs lines 483-514):
for each remaining account compute its storage root, insert the RLP leaf,
and checkpoint either after an account (threshold hit, checkpoint fields
`{account_root, hashed_address}`) or mid-storage (propagating the storage
checkpoint, account leaf not yet inserted). `scpKey`/`scpRoot` model the
`checkpoint.storage_key.take()` / `checkpoint.storage_root.take()` that are
non-`none` for the first iteration only. -/
def calc_root_loop (threshold : Nat) (storage : Nat → List (Nat × Nat)) :
    Nat → AccRoot → Option Nat → Option StRoot → List (Nat × Account) → TrieProgress
  | _, trie, _, _, [] => .complete trie
  | cur, trie, scpKey, scpRoot, p :: rest =>
    match calculate_storage_root threshold cur (storage p.1) scpKey scpRoot with
    | (.complete sroot, cur') =>
      let trie' := upsertSorted trie p.1 ((EthAccount.fromAccount p.2).with_storage_root sroot)
      let cur'' := cur' + 1
      if threshold ≤ cur'' then
        .inProgress { account_root := some trie', hashed_address := some p.1 }
      else
        calc_root_loop threshold storage cur'' trie' none none rest
    | (.inProgress sroot skey, _) =>
      .inProgress { account_root := some trie, hashed_address := some p.1,
                    storage_root := some sroot, storage_key := some skey }

/-- `DBTrieLoader::calculate_root` (trie/mod.rs lines 451-520) over a sorted
`HashedAccount` snapshot `accounts` and the `HashedStorage` subtrees
`storage`. The trie is opened from `checkpoint.account_root` (or fresh), the
account walk starts at `checkpoint.hashed_address` and skips it when that
account was completed (`storage_root` absent). The `AccountsTrie` /
`StoragesTrie` table clear on a fresh start acts on the node tables, which
the content model abstracts; it is modelled by `calculate_root_prologue`. -/
def calculate_root (threshold cur : Nat) (cp : ProofCheckpoint)
    (accounts : List (Nat × Account)) (storage : Nat → List (Nat × Nat)) :
    TrieProgress :=
  let trie : AccRoot := cp.account_root.getD []
  let walk0 := match cp.hashed_address with
    | none => accounts
    | some a => accounts.dropWhile (fun p => decide (p.1 < a))
  let walk := if cp.hashed_address.isSome && cp.storage_root.isNone then walk0.drop 1 else walk0
  calc_root_loop threshold storage cur trie cp.storage_key cp.storage_root walk

/-- Driving `calculate_root` the way the spec's resumption scenario does:
each call starts a fresh loader (`current = 0`) and feeds back the persisted
checkpoint (`save_account_checkpoint` persists exactly the `InProgress`
payload it returns), until `Complete`. -/
def run_to_completion (threshold : Nat) (accounts : List (Nat × Account))
    (storage : Nat → List (Nat × Nat)) :
    Nat → ProofCheckpoint → Option AccRoot
  | 0, _ => none
  | fuel + 1, cp =>
    match calculate_root threshold 0 cp accounts storage with
    | .complete r => some r
    | .inProgress cp' => run_to_completion threshold accounts storage fuel cp'

/-- The `for (idx, key)` loop of `update_storage_root`
(trie/mod.rs lines 732-754): per changed key, update the trie entry when the
slot is still in `HashedStorage` (checkpointing between keys, never after
the last, carrying the *current* key), else `trie.remove` it. -/
def update_storage_loop (threshold : Nat) (es : List (Nat × Nat)) :
    Nat → StRoot → List Nat → StorageProgress × Nat
  | cur, strie, [] => (.complete strie, cur)
  | cur, strie, k :: ks =>
    match seekExactSorted es k with
    | some v =>
      let strie' := upsertSorted strie k v
      let cur' := cur + 1
      if threshold ≤ cur' ∧ ks ≠ [] then (.inProgress strie' k, cur')
      else update_storage_loop threshold es cur' strie' ks
    | none => update_storage_loop threshold es cur (deleteKeyExact strie k) ks

/-- `DBTrieLoader::update_storage_root` (trie/mod.rs lines 694-762): empty
`HashedStorage` yields `EMPTY_ROOT`; otherwise reopen the trie from
`previous_root` and walk the changed keys, skipping keys `≤` the
checkpointed key when resuming. -/
def update_storage_root (threshold cur : Nat) (previous_root : StRoot)
    (es : List (Nat × Nat)) (changed : List Nat) (next_storage : Option Nat) :
    StorageProgress × Nat :=
  match es with
  | [] => (.complete [], cur)
  | _ :: _ =>
    let changed := match next_storage with
      | some ck => changed.dropWhile (fun k => decide (k ≤ ck))
      | none => changed
    update_storage_loop threshold es cur previous_root changed

/-- The `for (idx, (hashed_address, changed_storages))` loop of
`update_root` (trie/mod.rs lines 630-685): per changed account, update or
rebuild its storage root depending on whether the account is in the trie;
then re-insert the updated `EthAccount` **only when the address is still in
`HashedAccount`** (the `trie.remove` for the deleted case is commented out
in the source, line 636); threshold checkpoints happen between accounts and
never after the last. -/
def update_root_loop (threshold : Nat) (storage : Nat → List (Nat × Nat))
    (hashedAccounts : List (Nat × Account)) :
    Nat → AccRoot → Option Nat → Option StRoot → List (Nat × List Nat) → TrieProgress
  | _, trie, _, _, [] => .complete trie
  | cur, trie, scpKey, scpRoot, (addr, changedKeys) :: rest =>
    let res :=
      match lookupKey trie addr with
      | some acct =>
        update_storage_root threshold cur (scpRoot.getD acct.storage_root)
          (storage addr) changedKeys scpKey
      | none => calculate_storage_root threshold cur (storage addr) scpKey scpRoot
    match res with
    | (.inProgress sroot skey, _) =>
      .inProgress { account_root := some trie, hashed_address := some addr,
                    storage_root := some sroot, storage_key := some skey }
    | (.complete sroot, cur') =>
      match lookupKey hashedAccounts addr with
      | some account =>
        let trie' := upsertSorted trie addr
          ((EthAccount.fromAccount account).with_storage_root sroot)
        let cur'' := cur' + 1
        if threshold ≤ cur'' ∧ rest ≠ [] then
          .inProgress { account_root := some trie', hashed_address := some addr }
        else update_root_loop threshold storage hashedAccounts cur'' trie' none none rest
      | none => update_root_loop threshold storage hashedAccounts cur' trie none none rest

/-- `DBTrieLoader::update_root` (trie/mod.rs lines 599-691). `changes` is
the output of `gather_changes`: the changed accounts sorted by hashed
address, each with its sorted set of changed hashed storage keys. On resume
the checkpointed `account_root` overrides `previous_root` and accounts
before the checkpointed address are skipped. -/
def update_root (threshold cur : Nat) (previous_root : AccRoot) (cp : ProofCheckpoint)
    (changes : List (Nat × List Nat)) (hashedAccounts : List (Nat × Account))
    (storage : Nat → List (Nat × Nat)) : TrieProgress :=
  let previous_root := cp.account_root.getD previous_root
  let changed := match cp.hashed_address with
    | some a => changes.dropWhile (fun p => decide (p.1 ≠ a))
    | none => changes
  update_root_loop threshold storage hashedAccounts cur previous_root
    cp.storage_key cp.storage_root changed

/-! ### The table-clearing prologue of `calculate_root` (for claim C5)

The first lines of `calculate_root` (trie/mod.rs lines 452-469) act on the
node tables themselves, which the content model above abstracts; they are
modelled here over the raw tables, with roots as raw `Nat` hashes as
persisted. -/

/-- `reth_primitives::ProofCheckpoint` exactly as persisted: all roots raw
`Nat` hashes. -/
structure ProofCheckpointRaw where
  account_root : Option Nat := none
  hashed_address : Option Nat := none
  storage_root : Option Nat := none
  storage_key : Option Nat := none
deriving DecidableEq, Repr

/-- The `AccountsTrie` and `StoragesTrie` tables. -/
structure TrieTables where
  accountsTrie : List (Nat × Bytes)
  storagesTrie : List (Nat × List StorageTrieEntry)
deriving DecidableEq, Repr

/-- How the account trie is opened: `PatriciaTrie::from` a persisted root,
or `PatriciaTrie::new` over a fresh adapter. -/
inductive AccountTrieInit where
  | fromRoot (root : Nat)
  | fresh
deriving DecidableEq, Repr

/-- The prologue of `calculate_root` (trie/mod.rs lines 452-469): clear
`AccountsTrie` and `StoragesTrie` when `checkpoint.hashed_address` is
`None`; open the trie from `checkpoint.account_root` when present, fresh
otherwise. -/
def calculate_root_prologue (cp : ProofCheckpointRaw) (tables : TrieTables) :
    TrieTables × AccountTrieInit :=
  let tables := if cp.hashed_address.isNone then ⟨[], []⟩ else tables
  match cp.account_root with
  | some root => (tables, .fromRoot root)
  | none => (tables, .fresh)

end DBTrieLoader

/-! ## Sorted-table lemmas -/

/-- Strictly ascending keys: the well-formedness invariant of every MDBX
table walk (`HashedAccount`, and each `HashedStorage` dup subtree). -/
abbrev SortedKeys {α : Type} (l : List (Nat × α)) : Prop :=
  l.Pairwise (fun a b => a.1 < b.1)

theorem upsertSorted_append {α : Type} (l : List (Nat × α)) (k : Nat) (v : α)
    (h : ∀ p ∈ l, p.1 < k) : upsertSorted l k v = l ++ [(k, v)] := by
  induction l with
  | nil => rfl
  | cons q rest ih =>
    obtain ⟨k0, v0⟩ := q
    have hq : k0 < k := h (k0, v0) (by simp)
    simp only [upsertSorted]
    rw [if_neg (by omega), if_neg (by omega)]
    simp only [List.cons_append, List.cons.injEq, true_and]
    exact ih (fun p hp => h p (List.mem_cons_of_mem _ hp))

theorem sortedKeys_dropWhile_get {α : Type} (l : List (Nat × α))
    (hs : SortedKeys l) (i : Nat) (hi : i < l.length) :
    l.dropWhile (fun p => decide (p.1 < (l.get ⟨i, hi⟩).1)) = l.drop i := by
  induction l generalizing i with
  | nil => simp at hi
  | cons q rest ih =>
    obtain ⟨k0, v0⟩ := q
    rcases List.pairwise_cons.mp hs with ⟨hq, hrest⟩
    cases i with
    | zero =>
      simp only [List.get, List.dropWhile_cons, List.drop_zero]
      rw [if_neg (by simp)]
    | succ j =>
      have hj : j < rest.length := by simpa using hi
      have hlt : k0 < (rest.get ⟨j, hj⟩).1 := hq _ (List.get_mem rest j hj)
      simp only [List.get, List.dropWhile_cons, List.drop_succ_cons]
      rw [if_pos (by simpa using hlt)]
      exact ih hrest j hj

theorem sortedKeys_take_lt {α : Type} (l : List (Nat × α))
    (hs : SortedKeys l) (i : Nat) (hi : i < l.length) :
    ∀ p ∈ l.take i, p.1 < (l.get ⟨i, hi⟩).1 := by
  intro p hp
  have hsplit : l.take i ++ l.drop i = l := List.take_append_drop i l
  have hpw : List.Pairwise (fun a b => (a : Nat × α).1 < b.1) (l.take i ++ l.drop i) := by
    rw [hsplit]; exact hs
  rcases List.pairwise_append.mp hpw with ⟨_, _, hcross⟩
  have hget : l.get ⟨i, hi⟩ ∈ l.drop i := by
    rw [List.drop_eq_get_cons hi]; exact List.mem_cons_self _ _
  exact hcross p hp _ hget

namespace DBTrieLoader

/-- Wherever `calc_storage_loop` stops, the storage trie holds exactly the
slots walked so far: it either completes with all remaining entries
inserted, or checkpoints after a non-empty strict prefix carrying the next
entry's key. -/
theorem calc_storage_loop_spec (t : Nat) :
    ∀ (rest pre : List (Nat × Nat)) (cur : Nat), SortedKeys (pre ++ rest) →
    (∃ cur', calc_storage_loop t cur pre rest = (.complete (pre ++ rest), cur')) ∨
    (∃ m, ∃ hm : m < rest.length, ∃ cur', 0 < m ∧
      calc_storage_loop t cur pre rest
        = (.inProgress (pre ++ rest.take m) ((rest.get ⟨m, hm⟩).1), cur')) := by
  intro rest
  induction rest with
  | nil =>
    intro pre cur _
    left
    exact ⟨cur, by simp [calc_storage_loop]⟩
  | cons e rest2 ih =>
    intro pre cur hs
    obtain ⟨k, v⟩ := e
    have hklt : ∀ p ∈ pre, p.1 < k := by
      rcases List.pairwise_append.mp hs with ⟨_, _, hcross⟩
      exact fun p hp => hcross p hp (k, v) (by simp)
    have hins : upsertSorted pre k v = pre ++ [(k, v)] := upsertSorted_append pre k v hklt
    cases rest2 with
    | nil =>
      left
      refine ⟨cur + 1, ?_⟩
      simp [calc_storage_loop, hins]
    | cons e2 rest3 =>
      obtain ⟨k2, v2⟩ := e2
      by_cases hth : t ≤ cur + 1
      · right
        refine ⟨1, by simp, cur + 1, by omega, ?_⟩
        simp [calc_storage_loop, hins, if_pos hth]
      · have hs' : SortedKeys ((pre ++ [(k, v)]) ++ ((k2, v2) :: rest3)) := by
          simpa [List.append_assoc] using hs
        have step : calc_storage_loop t cur pre ((k, v) :: (k2, v2) :: rest3)
            = calc_storage_loop t (cur + 1) (pre ++ [(k, v)]) ((k2, v2) :: rest3) := by
          simp [calc_storage_loop, hins, if_neg hth]
        rcases ih (pre ++ [(k, v)]) (cur + 1) hs' with ⟨cur', hc⟩ | ⟨m, hm, cur', hm0, hc⟩
        · left
          refine ⟨cur', ?_⟩
          rw [step, hc]
          simp [List.append_assoc]
        · right
          refine ⟨m + 1, by simpa using Nat.succ_lt_succ hm, cur', by omega, ?_⟩
          rw [step, hc]
          simp [List.append_assoc, List.take_succ_cons, List.get]
  
end DBTrieLoader

namespace DBTrieLoader

/-- What a `calculate_storage_root` call started at position `j` of the
account's sorted slots may produce: completion with the full content, or a
checkpoint strictly beyond `j` whose root is the corresponding prefix and
whose key is the next unprocessed slot. -/
def StorageOutcome (es : List (Nat × Nat)) (j : Nat)
    (r : StorageProgress × Nat) : Prop :=
  (∃ cur', r = (.complete es, cur')) ∨
  (∃ m, ∃ hm : m < es.length, ∃ cur', j < m ∧
    r = (.inProgress (es.take m) ((es.get ⟨m, hm⟩).1), cur'))

/-- A fresh `calculate_storage_root` call (no storage checkpoint). -/
theorem calculate_storage_root_fresh (t cur : Nat) (es : List (Nat × Nat))
    (hs : SortedKeys es) :
    StorageOutcome es 0 (calculate_storage_root t cur es none none) := by
  cases es with
  | nil => exact .inl ⟨cur, rfl⟩
  | cons e es' =>
    have step : calculate_storage_root t cur (e :: es') none none
        = calc_storage_loop t cur [] (e :: es') := by
      obtain ⟨k, v⟩ := e
      rfl
    rw [step]
    rcases calc_storage_loop_spec t (e :: es') [] cur (by simpa using hs) with
      ⟨cur', hc⟩ | ⟨m, hm, cur', hm0, hc⟩
    · exact .inl ⟨cur', by simpa using hc⟩
    · exact .inr ⟨m, hm, cur', hm0, by simpa using hc⟩

/-- At the checkpointed slot the walk restarts exactly there. -/
theorem storage_walk_start_resume (es : List (Nat × Nat)) (hs : SortedKeys es)
    (j : Nat) (hj : j < es.length) :
    storage_walk_start es (some ((es.get ⟨j, hj⟩).1)) = es.drop j := by
  show (match es.dropWhile (fun p => decide (p.1 < (es.get ⟨j, hj⟩).1)) with
    | [] => ([] : List (Nat × Nat))
    | e :: rest => if e.1 = (es.get ⟨j, hj⟩).1 then e :: rest else []) = es.drop j
  rw [sortedKeys_dropWhile_get es hs j hj, List.drop_eq_get_cons hj]
  simp

/-- A resumed `calculate_storage_root` call: the checkpoint carries slot `j`
as `next_storage` and the prefix before it as `previous_root`; the cursor
seeks `j` exactly and the trie reopens from the persisted prefix. -/
theorem calculate_storage_root_resume (t cur : Nat) (es : List (Nat × Nat))
    (hs : SortedKeys es) (j : Nat) (hj : j < es.length) :
    StorageOutcome es j
      (calculate_storage_root t cur es (some ((es.get ⟨j, hj⟩).1)) (some (es.take j))) := by
  have hdropc : es.drop j = es.get ⟨j, hj⟩ :: es.drop (j + 1) := List.drop_eq_get_cons hj
  have step : calculate_storage_root t cur es (some ((es.get ⟨j, hj⟩).1)) (some (es.take j))
      = calc_storage_loop t cur (es.take j) (es.drop j) := by
    unfold calculate_storage_root
    rw [storage_walk_start_resume es hs j hj, hdropc]
    rfl
  rw [step]
  have hsplit : es.take j ++ es.drop j = es := List.take_append_drop j es
  rcases calc_storage_loop_spec t (es.drop j) (es.take j) cur (by rw [hsplit]; exact hs) with
    ⟨cur', hc⟩ | ⟨m, hm, cur', hm0, hc⟩
  · exact .inl ⟨cur', by rw [hc, hsplit]⟩
  · right
    have hjm : j + m < es.length := by
      have := hm
      rw [List.length_drop] at this
      omega
    refine ⟨j + m, hjm, cur', by omega, ?_⟩
    rw [hc]
    have htake : es.take (j + m) = es.take j ++ (es.drop j).take m := List.take_add es j m
    have hget : (es.get ⟨j + m, hjm⟩) = (es.drop j).get ⟨m, hm⟩ := List.get_drop es hjm
    rw [htake, hget]

end DBTrieLoader

namespace DBTrieLoader

/-- The leaf `calculate_root` writes for one `HashedAccount` row: its
`EthAccount` carrying the account's full storage content as root, keyed by
hashed address. -/
def accountLeaf (storage : Nat → List (Nat × Nat)) (p : Nat × Account) :
    Nat × EthAccount :=
  (p.1, (EthAccount.fromAccount p.2).with_storage_root (storage p.1))

/-- The state root of the full snapshot, in content form. -/
def full_root (accounts : List (Nat × Account)) (storage : Nat → List (Nat × Nat)) :
    AccRoot :=
  accounts.map (accountLeaf storage)

/-- The account trie after the first `i` accounts have been written. -/
def prefix_root (accounts : List (Nat × Account)) (storage : Nat → List (Nat × Nat))
    (i : Nat) : AccRoot :=
  (accounts.take i).map (accountLeaf storage)

theorem prefix_root_keys_lt (accounts : List (Nat × Account))
    (storage : Nat → List (Nat × Nat)) (i : Nat) (hi : i < accounts.length)
    (hA : SortedKeys accounts) :
    ∀ p ∈ prefix_root accounts storage i, p.1 < (accounts.get ⟨i, hi⟩).1 := by
  intro p hp
  rcases List.mem_map.mp hp with ⟨q, hq, rfl⟩
  exact sortedKeys_take_lt accounts hA i hi q hq

theorem prefix_root_snoc (accounts : List (Nat × Account))
    (storage : Nat → List (Nat × Nat)) (i : Nat) (hi : i < accounts.length) :
    prefix_root accounts storage i ++ [accountLeaf storage (accounts.get ⟨i, hi⟩)]
      = prefix_root accounts storage (i + 1) := by
  unfold prefix_root
  have hi' : i < (accounts.map (accountLeaf storage)).length := by simpa using hi
  simp only [List.map_take]
  rw [← List.take_concat_get (accounts.map (accountLeaf storage)) i hi']
  simp

/-- Every checkpoint `calculate_root` can persist: either "account `i`
completed" (its trie prefix includes the leaf of account `i`), or
"mid-storage in account `i` at slot `j`" (account `i`'s leaf not yet
written, the storage prefix before `j` persisted). -/
def GoodCheckpoint (accounts : List (Nat × Account))
    (storage : Nat → List (Nat × Nat)) (cp : ProofCheckpoint) : Prop :=
  (∃ i, ∃ hi : i < accounts.length,
    cp = { account_root := some (prefix_root accounts storage (i + 1)),
           hashed_address := some (accounts.get ⟨i, hi⟩).1,
           storage_root := none, storage_key := none }) ∨
  (∃ i, ∃ hi : i < accounts.length, ∃ j,
    ∃ hj : j < (storage (accounts.get ⟨i, hi⟩).1).length,
    cp = { account_root := some (prefix_root accounts storage i),
           hashed_address := some (accounts.get ⟨i, hi⟩).1,
           storage_root := some ((storage (accounts.get ⟨i, hi⟩).1).take j),
           storage_key := some (((storage (accounts.get ⟨i, hi⟩).1).get ⟨j, hj⟩).1) })

/-- The admissible storage-checkpoint arguments when the account walk stands
at account `i`: none at all, or a mid-storage resume point of account `i`. -/
def StorageStart (accounts : List (Nat × Account))
    (storage : Nat → List (Nat × Nat)) (i : Nat)
    (scpKey : Option Nat) (scpRoot : Option StRoot) : Prop :=
  (scpKey = none ∧ scpRoot = none) ∨
  (∃ hi : i < accounts.length, ∃ j,
    ∃ hj : j < (storage (accounts.get ⟨i, hi⟩).1).length,
    scpKey = some (((storage (accounts.get ⟨i, hi⟩).1).get ⟨j, hj⟩).1) ∧
    scpRoot = some ((storage (accounts.get ⟨i, hi⟩).1).take j))

/-- Main loop invariant of `calculate_root`: entered at account `i` with the
prefix trie and an admissible storage start, the walk either completes with
the full root or checkpoints a `GoodCheckpoint`. -/
theorem calc_root_loop_outcome (t : Nat) (accounts : List (Nat × Account))
    (storage : Nat → List (Nat × Nat)) (hA : SortedKeys accounts)
    (hS : ∀ a, SortedKeys (storage a)) :
    ∀ n i cur scpKey scpRoot, i + n = accounts.length →
      StorageStart accounts storage i scpKey scpRoot →
      (calc_root_loop t storage cur (prefix_root accounts storage i) scpKey scpRoot
          (accounts.drop i) = .complete (full_root accounts storage)) ∨
      (∃ cp, calc_root_loop t storage cur (prefix_root accounts storage i) scpKey scpRoot
          (accounts.drop i) = .inProgress cp ∧ GoodCheckpoint accounts storage cp) := by
  intro n
  induction n with
  | zero =>
    intro i cur scpKey scpRoot hlen _
    have hi : i = accounts.length := by omega
    subst hi
    left
    have hfull : prefix_root accounts storage accounts.length = full_root accounts storage := by
      unfold prefix_root full_root
      rw [List.take_length]
    rw [List.drop_length, ← hfull]
    rfl
  | succ n ih =>
    intro i cur scpKey scpRoot hlen hstart
    have hi : i < accounts.length := by omega
    have hdropc : accounts.drop i = accounts.get ⟨i, hi⟩ :: accounts.drop (i + 1) :=
      List.drop_eq_get_cons hi
    have hout : ∃ j0, StorageOutcome (storage (accounts.get ⟨i, hi⟩).1) j0
        (calculate_storage_root t cur (storage (accounts.get ⟨i, hi⟩).1) scpKey scpRoot) := by
      rcases hstart with ⟨hk, hr⟩ | ⟨hi', j, hj, hk, hr⟩
      · subst hk; subst hr
        exact ⟨0, calculate_storage_root_fresh t cur _ (hS _)⟩
      · subst hk; subst hr
        exact ⟨j, calculate_storage_root_resume t cur _ (hS _) j hj⟩
    obtain ⟨j0, hout⟩ := hout
    rw [hdropc]
    rcases hout with ⟨cur', hc⟩ | ⟨m, hm, cur', hjm, hc⟩
    · have hupsert : upsertSorted (prefix_root accounts storage i) (accounts.get ⟨i, hi⟩).1
          ((EthAccount.fromAccount (accounts.get ⟨i, hi⟩).2).with_storage_root
            (storage (accounts.get ⟨i, hi⟩).1))
          = prefix_root accounts storage (i + 1) := by
        rw [upsertSorted_append _ _ _ (prefix_root_keys_lt accounts storage i hi hA)]
        exact prefix_root_snoc accounts storage i hi
      simp only [calc_root_loop, hc, hupsert]
      by_cases hth : t ≤ cur' + 1
      · rw [if_pos hth]
        right
        exact ⟨_, rfl, .inl ⟨i, hi, rfl⟩⟩
      · rw [if_neg hth]
        exact ih (i + 1) (cur' + 1) none none (by omega) (.inl ⟨rfl, rfl⟩)
    · simp only [calc_root_loop, hc]
      right
      exact ⟨_, rfl, .inr ⟨i, hi, m, hm, rfl⟩⟩

end DBTrieLoader

namespace DBTrieLoader

/-- One resumed `calculate_root` call from a fresh start or any persisted
checkpoint: it either completes with the full root or persists another
`GoodCheckpoint`. -/
theorem calculate_root_outcome (t : Nat) (accounts : List (Nat × Account))
    (storage : Nat → List (Nat × Nat)) (hA : SortedKeys accounts)
    (hS : ∀ a, SortedKeys (storage a)) (cp : ProofCheckpoint)
    (hcp : cp = {} ∨ GoodCheckpoint accounts storage cp) :
    (calculate_root t 0 cp accounts storage = .complete (full_root accounts storage)) ∨
    (∃ cp', calculate_root t 0 cp accounts storage = .inProgress cp' ∧
      GoodCheckpoint accounts storage cp') := by
  rcases hcp with rfl | hgood
  · have h0 : calculate_root t 0 {} accounts storage
        = calc_root_loop t storage 0 (prefix_root accounts storage 0) none none
            (accounts.drop 0) := rfl
    rw [h0]
    exact calc_root_loop_outcome t accounts storage hA hS accounts.length 0 0 none none
      (by omega) (.inl ⟨rfl, rfl⟩)
  · rcases hgood with ⟨i, hi, rfl⟩ | ⟨i, hi, j, hj, rfl⟩
    · have hstep : calculate_root t 0
          { account_root := some (prefix_root accounts storage (i + 1)),
            hashed_address := some (accounts.get ⟨i, hi⟩).1,
            storage_root := none, storage_key := none } accounts storage
          = calc_root_loop t storage 0 (prefix_root accounts storage (i + 1)) none none
              ((accounts.dropWhile
                  (fun p => decide (p.1 < (accounts.get ⟨i, hi⟩).1))).drop 1) := rfl
      rw [hstep, sortedKeys_dropWhile_get accounts hA i hi, List.drop_drop 1 i accounts]
      exact calc_root_loop_outcome t accounts storage hA hS (accounts.length - (i + 1))
        (i + 1) 0 none none (by omega) (.inl ⟨rfl, rfl⟩)
    · have hstep : calculate_root t 0
          { account_root := some (prefix_root accounts storage i),
            hashed_address := some (accounts.get ⟨i, hi⟩).1,
            storage_root := some ((storage (accounts.get ⟨i, hi⟩).1).take j),
            storage_key := some (((storage (accounts.get ⟨i, hi⟩).1).get ⟨j, hj⟩).1) }
          accounts storage
          = calc_root_loop t storage 0 (prefix_root accounts storage i)
              (some (((storage (accounts.get ⟨i, hi⟩).1).get ⟨j, hj⟩).1))
              (some ((storage (accounts.get ⟨i, hi⟩).1).take j))
              (accounts.dropWhile
                (fun p => decide (p.1 < (accounts.get ⟨i, hi⟩).1))) := rfl
      rw [hstep, sortedKeys_dropWhile_get accounts hA i hi]
      exact calc_root_loop_outcome t accounts storage hA hS (accounts.length - i) i 0 _ _
        (by omega) (.inr ⟨hi, j, hj, rfl, rfl⟩)

/-- Whenever the checkpoint-resume protocol reaches `Complete`, the root it
returns is the full snapshot root, for any commit threshold. -/
theorem run_to_completion_correct (t : Nat) (accounts : List (Nat × Account))
    (storage : Nat → List (Nat × Nat)) (hA : SortedKeys accounts)
    (hS : ∀ a, SortedKeys (storage a)) :
    ∀ fuel cp, (cp = {} ∨ GoodCheckpoint accounts storage cp) →
    ∀ r, run_to_completion t accounts storage fuel cp = some r →
    r = full_root accounts storage := by
  intro fuel
  induction fuel with
  | zero =>
    intro cp _ r h
    simp [run_to_completion] at h
  | succ n ih =>
    intro cp hcp r h
    rcases calculate_root_outcome t accounts storage hA hS cp hcp with hc | ⟨cp', hc, hgood⟩
    · simp only [run_to_completion, hc, Option.some.injEq] at h
      exact h.symm
    · simp only [run_to_completion, hc] at h
      exact ih cp' (.inr hgood) r h

/-- Number of `has_hit_threshold` bumps of a full build over the accounts
from position `i` on: one per storage slot plus one per account leaf. -/
def work_from (accounts : List (Nat × Account)) (storage : Nat → List (Nat × Nat))
    (i : Nat) : Nat :=
  (accounts.drop i).foldr (fun p acc => 1 + (storage p.1).length + acc) 0

/-- Total `has_hit_threshold` bumps of a full build. -/
def total_work (accounts : List (Nat × Account)) (storage : Nat → List (Nat × Nat)) :
    Nat :=
  accounts.foldr (fun p acc => 1 + (storage p.1).length + acc) 0

/-- With the threshold out of reach, the storage loop runs to completion. -/
theorem calc_storage_loop_no_threshold (t : Nat) :
    ∀ (rest pre : List (Nat × Nat)) (cur : Nat), SortedKeys (pre ++ rest) →
    cur + rest.length < t →
    calc_storage_loop t cur pre rest = (.complete (pre ++ rest), cur + rest.length) := by
  intro rest
  induction rest with
  | nil =>
    intro pre cur _ _
    simp [calc_storage_loop]
  | cons e rest2 ih =>
    intro pre cur hs hbud
    obtain ⟨k, v⟩ := e
    have hklt : ∀ p ∈ pre, p.1 < k := by
      rcases List.pairwise_append.mp hs with ⟨_, _, hcross⟩
      exact fun p hp => hcross p hp (k, v) (by simp)
    have hins : upsertSorted pre k v = pre ++ [(k, v)] := upsertSorted_append pre k v hklt
    cases rest2 with
    | nil =>
      simp [calc_storage_loop, hins]
    | cons e2 rest3 =>
      obtain ⟨k2, v2⟩ := e2
      have hth : ¬ t ≤ cur + 1 := by
        simp only [List.length_cons] at hbud
        omega
      have hstep : calc_storage_loop t cur pre ((k, v) :: (k2, v2) :: rest3)
          = if t ≤ cur + 1 then (.inProgress (upsertSorted pre k v) k2, cur + 1)
            else calc_storage_loop t (cur + 1) (upsertSorted pre k v) ((k2, v2) :: rest3) := rfl
      have hrec := ih (pre ++ [(k, v)]) (cur + 1)
        (by simpa [List.append_assoc] using hs)
        (by simp only [List.length_cons] at hbud ⊢; omega)
      rw [hstep, if_neg hth, hins, hrec]
      simp only [List.append_assoc, List.cons_append, List.nil_append, List.length_cons,
        Prod.mk.injEq, true_and]
      omega
  
end DBTrieLoader

namespace DBTrieLoader

/-- With the threshold out of reach, the account walk runs to completion in
one call. -/
theorem calc_root_loop_no_threshold (t : Nat) (accounts : List (Nat × Account))
    (storage : Nat → List (Nat × Nat)) (hA : SortedKeys accounts)
    (hS : ∀ a, SortedKeys (storage a)) :
    ∀ n i cur, i + n = accounts.length →
    cur + work_from accounts storage i < t →
    calc_root_loop t storage cur (prefix_root accounts storage i) none none
      (accounts.drop i) = .complete (full_root accounts storage) := by
  intro n
  induction n with
  | zero =>
    intro i cur hlen _
    have hi : i = accounts.length := by omega
    subst hi
    have hfull : prefix_root accounts storage accounts.length = full_root accounts storage := by
      unfold prefix_root full_root
      rw [List.take_length]
    rw [List.drop_length, ← hfull]
    rfl
  | succ n ih =>
    intro i cur hlen hbud
    have hi : i < accounts.length := by omega
    have hdropc : accounts.drop i = accounts.get ⟨i, hi⟩ :: accounts.drop (i + 1) :=
      List.drop_eq_get_cons hi
    have hwork : work_from accounts storage i
        = 1 + (storage (accounts.get ⟨i, hi⟩).1).length + work_from accounts storage (i + 1) := by
      unfold work_from
      rw [hdropc]
      rfl
    have hcs : calculate_storage_root t cur (storage (accounts.get ⟨i, hi⟩).1) none none
        = (.complete (storage (accounts.get ⟨i, hi⟩).1),
           cur + (storage (accounts.get ⟨i, hi⟩).1).length) := by
      have hsorted := hS (accounts.get ⟨i, hi⟩).1
      cases hes : storage (accounts.get ⟨i, hi⟩).1 with
      | nil => simp [calculate_storage_root, storage_walk_start]
      | cons e es' =>
        rw [hes] at hsorted
        rw [hes] at hwork
        have h1 : calculate_storage_root t cur (e :: es') none none
            = calc_storage_loop t cur [] (e :: es') := rfl
        have hbud' : cur + (e :: es').length < t := by
          simp only [List.length_cons] at hwork ⊢
          omega
        rw [h1, calc_storage_loop_no_threshold t (e :: es') [] cur (by simpa using hsorted) hbud']
        simp
    have hupsert : upsertSorted (prefix_root accounts storage i) (accounts.get ⟨i, hi⟩).1
        ((EthAccount.fromAccount (accounts.get ⟨i, hi⟩).2).with_storage_root
          (storage (accounts.get ⟨i, hi⟩).1))
        = prefix_root accounts storage (i + 1) := by
      rw [upsertSorted_append _ _ _ (prefix_root_keys_lt accounts storage i hi hA)]
      exact prefix_root_snoc accounts storage i hi
    have hth : ¬ t ≤ cur + (storage (accounts.get ⟨i, hi⟩).1).length + 1 := by
      omega
    rw [hdropc]
    simp only [calc_root_loop, hcs, hupsert]
    rw [if_neg hth]
    exact ih (i + 1) (cur + (storage (accounts.get ⟨i, hi⟩).1).length + 1) (by omega) (by omega)

/-- With a commit threshold larger than the total number of counter bumps,
`calculate_root` completes in a single call with the full snapshot root. -/
theorem calculate_root_one_shot (t : Nat) (accounts : List (Nat × Account))
    (storage : Nat → List (Nat × Nat)) (hA : SortedKeys accounts)
    (hS : ∀ a, SortedKeys (storage a)) (hbig : total_work accounts storage < t) :
    calculate_root t 0 {} accounts storage = .complete (full_root accounts storage) := by
  have h0 : calculate_root t 0 {} accounts storage
      = calc_root_loop t storage 0 (prefix_root accounts storage 0) none none
          (accounts.drop 0) := rfl
  rw [h0]
  have hw0 : work_from accounts storage 0 = total_work accounts storage := rfl
  exact calc_root_loop_no_threshold t accounts storage hA hS accounts.length 0 0
    (by omega) (by rw [hw0]; omega)

end DBTrieLoader

/-! ## Table lemmas for the adapter claims -/

theorem lookupKey_eq_none_of_not_mem {α : Type} (tbl : List (Nat × α)) (k : Nat)
    (h : ∀ p ∈ tbl, p.1 ≠ k) : lookupKey tbl k = none := by
  induction tbl with
  | nil => rfl
  | cons p rest ih =>
    obtain ⟨k0, v0⟩ := p
    simp only [lookupKey]
    rw [if_neg (h (k0, v0) (by simp))]
    exact ih (fun q hq => h q (List.mem_cons_of_mem _ hq))

theorem lookupKey_deleteKeyExact_self {α : Type} (tbl : List (Nat × α)) (k : Nat)
    (hN : (tbl.map Prod.fst).Nodup) : lookupKey (deleteKeyExact tbl k) k = none := by
  induction tbl with
  | nil => rfl
  | cons p rest ih =>
    obtain ⟨k0, v0⟩ := p
    have hN' : k0 ∉ rest.map Prod.fst ∧ (rest.map Prod.fst).Nodup := by
      rw [List.map_cons, List.nodup_cons] at hN
      exact hN
    unfold deleteKeyExact
    rw [List.eraseP_cons]
    by_cases hk : k0 = k
    · rw [decide_eq_true hk]
      simp only [cond_true]
      subst hk
      refine lookupKey_eq_none_of_not_mem rest k0 ?_
      intro q hq hqq
      exact hN'.1 (hqq ▸ List.mem_map_of_mem Prod.fst hq)
    · rw [decide_eq_false hk]
      simp only [cond_false, lookupKey]
      rw [if_neg hk]
      exact ih hN'.2

theorem lookupKey_deleteKeyExact_other {α : Type} (tbl : List (Nat × α)) (k k' : Nat)
    (hne : k' ≠ k) : lookupKey (deleteKeyExact tbl k) k' = lookupKey tbl k' := by
  induction tbl with
  | nil => rfl
  | cons p rest ih =>
    obtain ⟨k0, v0⟩ := p
    unfold deleteKeyExact
    rw [List.eraseP_cons]
    by_cases hk : k0 = k
    · rw [decide_eq_true hk]
      simp only [cond_true, lookupKey]
      rw [if_neg (by omega)]
    · rw [decide_eq_false hk]
      simp only [cond_false, lookupKey]
      by_cases hk' : k0 = k'
      · rw [if_pos hk', if_pos hk']
      · rw [if_neg hk', if_neg hk']
        exact ih

theorem lookupEntryHash_eq_none_of_forall (l : List StorageTrieEntry) (h : Nat)
    (hall : ∀ x ∈ l, x.hash ≠ h) : lookupEntryHash l h = none := by
  induction l with
  | nil => rfl
  | cons e rest ih =>
    simp only [lookupEntryHash]
    rw [if_neg (hall e (by simp))]
    exact ih (fun x hx => hall x (List.mem_cons_of_mem _ hx))

theorem lookupEntryHash_append (a b : List StorageTrieEntry) (h : Nat) :
    lookupEntryHash (a ++ b) h
      = match lookupEntryHash a h with
        | some e => some e
        | none => lookupEntryHash b h := by
  induction a with
  | nil => rfl
  | cons e rest ih =>
    simp only [List.cons_append, lookupEntryHash]
    by_cases he : e.hash = h
    · rw [if_pos he, if_pos he]
    · rw [if_neg he, if_neg he]
      exact ih

theorem deleteEntryAt_cons_lt (e : StorageTrieEntry) (rest : List StorageTrieEntry)
    (h : Nat) (hlt : e.hash < h) :
    deleteEntryAt (e :: rest) h = e :: deleteEntryAt rest h := by
  unfold deleteEntryAt
  rw [List.dropWhile_cons, List.takeWhile_cons]
  rw [if_pos (by simpa using hlt), if_pos (by simpa using hlt)]
  cases hdw : rest.dropWhile (fun x => decide (x.hash < h)) with
  | nil => rfl
  | cons e2 rest2 => by_cases he2 : e2.hash = h <;> simp [he2]

theorem deleteEntryAt_cons_ge (e : StorageTrieEntry) (rest : List StorageTrieEntry)
    (h : Nat) (hge : ¬ e.hash < h) :
    deleteEntryAt (e :: rest) h = if e.hash = h then rest else e :: rest := by
  by_cases heq : e.hash = h <;>
    simp [deleteEntryAt, List.dropWhile_cons, List.takeWhile_cons, hge, heq]

theorem lookupEntryHash_deleteEntryAt_self (sub : List StorageTrieEntry) (h : Nat)
    (hs : sub.Pairwise (fun a b => a.hash < b.hash)) :
    lookupEntryHash (deleteEntryAt sub h) h = none := by
  induction sub with
  | nil => rfl
  | cons e rest ih =>
    rcases List.pairwise_cons.mp hs with ⟨he, hrest⟩
    by_cases hlt : e.hash < h
    · rw [deleteEntryAt_cons_lt e rest h hlt]
      simp only [lookupEntryHash]
      rw [if_neg (by omega)]
      exact ih hrest
    · rw [deleteEntryAt_cons_ge e rest h hlt]
      by_cases heq : e.hash = h
      · rw [if_pos heq]
        refine lookupEntryHash_eq_none_of_forall rest h ?_
        intro x hx
        have := he x hx
        omega
      · rw [if_neg heq]
        refine lookupEntryHash_eq_none_of_forall (e :: rest) h ?_
        intro x hx
        rcases List.mem_cons.mp hx with rfl | hx2
        · exact heq
        · have := he x hx2
          omega

theorem lookupEntryHash_deleteEntryAt_other (sub : List StorageTrieEntry) (h h' : Nat)
    (hne : h' ≠ h) :
    lookupEntryHash (deleteEntryAt sub h) h' = lookupEntryHash sub h' := by
  have hsplit := List.takeWhile_append_dropWhile (fun e => decide (e.hash < h)) sub
  cases hdw : sub.dropWhile (fun e => decide (e.hash < h)) with
  | nil =>
    have hdel : deleteEntryAt sub h = sub := by
      unfold deleteEntryAt
      rw [hdw]
    rw [hdel]
  | cons e rest =>
    by_cases he : e.hash = h
    · have hdel : deleteEntryAt sub h
          = sub.takeWhile (fun e => decide (e.hash < h)) ++ rest := by
        unfold deleteEntryAt
        rw [hdw]
        simp [he]
      rw [hdel]
      rw [hdw] at hsplit
      conv_rhs => rw [← hsplit]
      rw [lookupEntryHash_append, lookupEntryHash_append]
      cases hc : lookupEntryHash (sub.takeWhile (fun e => decide (e.hash < h))) h' with
      | some x => rfl
      | none =>
        simp only [lookupEntryHash]
        rw [if_neg (by omega)]
    · have hdel : deleteEntryAt sub h = sub := by
        unfold deleteEntryAt
        rw [hdw]
        simp [he]
      rw [hdel]

theorem filter_upsertEntry_ne (sub : List StorageTrieEntry) (e : StorageTrieEntry)
    (hne : e.hash ≠ EMPTY_ROOT) :
    (upsertEntry sub e).filter (fun x => decide (x.hash = EMPTY_ROOT))
      = sub.filter (fun x => decide (x.hash = EMPTY_ROOT)) := by
  unfold upsertEntry
  conv_rhs => rw [← List.takeWhile_append_dropWhile (fun x => decide (x.hash < e.hash)) sub]
  rw [List.filter_append, List.filter_append]
  congr 1
  simp [List.filter_cons, hne]

theorem filter_deleteEntryAt_ne (sub : List StorageTrieEntry) (h : Nat)
    (hne : h ≠ EMPTY_ROOT) :
    (deleteEntryAt sub h).filter (fun x => decide (x.hash = EMPTY_ROOT))
      = sub.filter (fun x => decide (x.hash = EMPTY_ROOT)) := by
  cases hdw : sub.dropWhile (fun e => decide (e.hash < h)) with
  | nil =>
    have hdel : deleteEntryAt sub h = sub := by
      unfold deleteEntryAt
      rw [hdw]
    rw [hdel]
  | cons e rest =>
    by_cases he : e.hash = h
    · have hdel : deleteEntryAt sub h
          = sub.takeWhile (fun e => decide (e.hash < h)) ++ rest := by
        unfold deleteEntryAt
        rw [hdw]
        simp [he]
      have hsplit := List.takeWhile_append_dropWhile (fun e => decide (e.hash < h)) sub
      rw [hdw] at hsplit
      rw [hdel]
      conv_rhs => rw [← hsplit]
      rw [List.filter_append, List.filter_append]
      congr 1
      simp [List.filter_cons, he, hne]
    · have hdel : deleteEntryAt sub h = sub := by
        unfold deleteEntryAt
        rw [hdw]
        simp [he]
      rw [hdel]

theorem foldl_insertMapStep_filter_empty_root (isUpdate : Bool) (l : List (Nat × Bytes)) :
    ∀ sub : List StorageTrieEntry,
    ((l.foldl (DupHashDatabaseMut.insertMapStep isUpdate) sub).filter
        (fun x => decide (x.hash = EMPTY_ROOT)))
      = sub.filter (fun x => decide (x.hash = EMPTY_ROOT)) := by
  induction l with
  | nil =>
    intro sub
    rfl
  | cons p rest ih =>
    intro sub
    rw [List.foldl_cons, ih]
    unfold DupHashDatabaseMut.insertMapStep
    by_cases hE : p.1 = EMPTY_ROOT
    · rw [if_pos hE]
    · rw [if_neg hE]
      by_cases hu : isUpdate
      · rw [if_pos hu]
        rw [filter_upsertEntry_ne _ _ hE]
        exact filter_deleteEntryAt_ne sub p.1 hE
      · rw [if_neg hu]
        rw [List.filter_append]
        simp [List.filter_cons, hE]

theorem lookupKey_map_update_other {α : Type} (tbl : List (Nat × α)) (address : Nat)
    (f : α → α) (a : Nat) (ha : a ≠ address) :
    lookupKey (tbl.map (fun p => if p.1 = address then (p.1, f p.2) else p)) a
      = lookupKey tbl a := by
  induction tbl with
  | nil => rfl
  | cons p rest ih =>
    obtain ⟨k0, v0⟩ := p
    simp only [List.map_cons]
    by_cases hk : k0 = address
    · rw [if_pos hk]
      simp only [lookupKey]
      rw [if_neg (by omega), if_neg (by omega)]
      exact ih
    · rw [if_neg hk]
      simp only [lookupKey]
      by_cases hk' : k0 = a
      · rw [if_pos hk', if_pos hk']
      · rw [if_neg hk', if_neg hk']
        exact ih

/-! ## Claims -/

/-- C1: For a fixed `HashedAccount` and `HashedStorage` snapshot,
`DBTrieLoader::calculate_root` run to completion in a single call
(`commit_threshold` large enough that it returns `Complete` immediately)
yields the same final state root as running it with any smaller positive
`commit_threshold`, resuming from the persisted `ProofCheckpoint` after each
`InProgress` return, until it returns `Complete`. -/
theorem C1_calculate_root_refinement (accounts : List (Nat × DBTrieLoader.Account))
    (storage : Nat → List (Nat × Nat)) (hA : SortedKeys accounts)
    (hS : ∀ a, SortedKeys (storage a)) (t T : Nat)
    (hT : DBTrieLoader.total_work accounts storage < T) :
    DBTrieLoader.calculate_root T 0 {} accounts storage
      = .complete (DBTrieLoader.full_root accounts storage) ∧
    ∀ fuel r, DBTrieLoader.run_to_completion t accounts storage fuel {} = some r →
      r = DBTrieLoader.full_root accounts storage :=
  ⟨DBTrieLoader.calculate_root_one_shot T accounts storage hA hS hT,
   fun fuel r h =>
     DBTrieLoader.run_to_completion_correct t accounts storage hA hS fuel {} (.inl rfl) r h⟩

/-- Witness for C1 at a concrete two-account snapshot with storage. -/
theorem C1_calculate_root_refinement_witness :
    SortedKeys [((2 : Nat), (⟨1, 10, none⟩ : DBTrieLoader.Account)), (5, ⟨2, 20, some 9⟩)] ∧
    (∀ a : Nat, SortedKeys ((fun _ : Nat => [((1 : Nat), (11 : Nat)), (4, 44)]) a)) ∧
    DBTrieLoader.total_work [((2 : Nat), (⟨1, 10, none⟩ : DBTrieLoader.Account)), (5, ⟨2, 20, some 9⟩)]
      (fun _ => [(1, 11), (4, 44)]) < 100 ∧
    (DBTrieLoader.calculate_root 100 0 {}
        [(2, ⟨1, 10, none⟩), (5, ⟨2, 20, some 9⟩)] (fun _ => [(1, 11), (4, 44)])
      = .complete (DBTrieLoader.full_root
          [(2, ⟨1, 10, none⟩), (5, ⟨2, 20, some 9⟩)] (fun _ => [(1, 11), (4, 44)])) ∧
     ∀ fuel r, DBTrieLoader.run_to_completion 1
        [(2, ⟨1, 10, none⟩), (5, ⟨2, 20, some 9⟩)] (fun _ => [(1, 11), (4, 44)]) fuel {} = some r →
       r = DBTrieLoader.full_root
          [(2, ⟨1, 10, none⟩), (5, ⟨2, 20, some 9⟩)] (fun _ => [(1, 11), (4, 44)])) :=
  ⟨by decide,
   fun _ => (by decide : SortedKeys [((1 : Nat), (11 : Nat)), (4, 44)]),
   by decide,
   C1_calculate_root_refinement _ _ (by decide)
     (fun _ => (by decide : SortedKeys [((1 : Nat), (11 : Nat)), (4, 44)])) 1 100 (by decide)⟩

/-- C2: `insert_block_with_senders` returns `PendingBlockIsFinalized` when
`block.number ≤ last_finalized_block` and `PendingBlockIsInFuture` when
`block.number > last_finalized_block + num_of_side_chain_max_size`; in both
error cases the tree (chains and block indices) is returned unchanged. -/
theorem C2_insert_block_admission_errors {Ch : Type}
    (forkSideChain : BlockchainTree Ch → SealedBlockWithSenders → Nat → TreeStep Ch Unit)
    (forkCanonicalChain : BlockchainTree Ch → SealedBlockWithSenders → TreeStep Ch Unit)
    (t : BlockchainTree Ch) (block : SealedBlockWithSenders) :
    (block.number ≤ t.blockIndices.lastFinalizedBlock →
      insertBlockWithSenders forkSideChain forkCanonicalChain t block
        = (.error (.pendingBlockIsFinalized block.number block.hash
            t.blockIndices.lastFinalizedBlock), t)) ∧
    (t.blockIndices.lastFinalizedBlock + t.numOfSideChainMaxSize < block.number →
      insertBlockWithSenders forkSideChain forkCanonicalChain t block
        = (.error (.pendingBlockIsInFuture block.number block.hash
            t.blockIndices.lastFinalizedBlock), t)) := by
  constructor
  · intro h
    simp only [insertBlockWithSenders]
    rw [if_pos h]
  · intro h
    simp only [insertBlockWithSenders]
    rw [if_neg (by omega), if_pos h]

/-- Witness for C2 at a concrete tree and two blocks. -/
theorem C2_insert_block_admission_errors_witness :
    ((3 : Nat) ≤ 5 ∧
      insertBlockWithSenders (fun t _ _ => (.ok (), t)) (fun t _ => (.ok (), t))
        (⟨[], 0, ⟨[], [], [(3, 77)], 5⟩, 2, 1⟩ : BlockchainTree Unit) ⟨3, 30, 0⟩
        = (.error (.pendingBlockIsFinalized 3 30 5), ⟨[], 0, ⟨[], [], [(3, 77)], 5⟩, 2, 1⟩)) ∧
    ((5 : Nat) + 2 < 9 ∧
      insertBlockWithSenders (fun t _ _ => (.ok (), t)) (fun t _ => (.ok (), t))
        (⟨[], 0, ⟨[], [], [(3, 77)], 5⟩, 2, 1⟩ : BlockchainTree Unit) ⟨9, 90, 0⟩
        = (.error (.pendingBlockIsInFuture 9 90 5), ⟨[], 0, ⟨[], [], [(3, 77)], 5⟩, 2, 1⟩)) :=
  ⟨⟨by decide, (C2_insert_block_admission_errors _ _ _ _).1 (by decide)⟩,
   ⟨by decide, (C2_insert_block_admission_errors _ _ _ _).2 (by decide)⟩⟩

/-- C3 (code bug in the source): in `update_root`, for a changed account
whose hashed address is no longer in `HashedAccount`, no updated
`EthAccount` is inserted — but the stale leaf is not removed either (the
`trie.remove` is commented out, trie/mod.rs line 636), so after `Complete` a
lookup of that address in the resulting account trie still returns the old
`EthAccount`, not nothing: here account `1` is changed, deleted from
`HashedAccount`, yet survives in the trie. -/
theorem C3_update_root_deleted_account_stale_leaf :
    DBTrieLoader.update_root 100 0 [(1, ⟨7, 70, [], KECCAK_EMPTY⟩)] {} [(1, [])] []
      (fun _ => []) = .complete [(1, ⟨7, 70, [], KECCAK_EMPTY⟩)] ∧
    lookupKey [((1 : Nat), (⟨7, 70, [], KECCAK_EMPTY⟩ : DBTrieLoader.EthAccount))] 1
      = some ⟨7, 70, [], KECCAK_EMPTY⟩ :=
  ⟨rfl, rfl⟩

/-- C4: if a block hash is not in `blocks_to_chain` but is canonical,
`make_canonical` returns `Ok(())` with the tree unchanged (idempotent); if
it is neither in any chain nor canonical, it returns
`BlockHashNotFoundInChain`, also leaving the tree unchanged. -/
theorem C4_make_canonical_cases {Ch : Type}
    (promote : BlockchainTree Ch → Nat → Nat → TreeStep Ch Unit)
    (t : BlockchainTree Ch) (blockHash : Nat)
    (hnochain : t.blockIndices.getBlocksChainId blockHash = none) :
    (t.blockIndices.isBlockHashCanonical blockHash = true →
      makeCanonical promote t blockHash = (.ok (), t)) ∧
    (t.blockIndices.isBlockHashCanonical blockHash = false →
      makeCanonical promote t blockHash
        = (.error (.blockHashNotFoundInChain blockHash), t)) := by
  constructor <;> intro hc <;> simp [makeCanonical, hnochain, hc]

/-- Witness for C4 at a concrete tree: hash `77` is canonical and not in any
chain; hash `99` is neither. -/
theorem C4_make_canonical_cases_witness :
    (makeCanonical (fun t _ _ => (.ok (), t))
        (⟨[], 0, ⟨[], [], [(3, 77)], 5⟩, 2, 1⟩ : BlockchainTree Unit) 77
      = (.ok (), ⟨[], 0, ⟨[], [], [(3, 77)], 5⟩, 2, 1⟩)) ∧
    (makeCanonical (fun t _ _ => (.ok (), t))
        (⟨[], 0, ⟨[], [], [(3, 77)], 5⟩, 2, 1⟩ : BlockchainTree Unit) 99
      = (.error (.blockHashNotFoundInChain 99), ⟨[], 0, ⟨[], [], [(3, 77)], 5⟩, 2, 1⟩)) :=
  ⟨(C4_make_canonical_cases _ _ 77 (by decide)).1 (by decide),
   (C4_make_canonical_cases _ _ 99 (by decide)).2 (by decide)⟩

/-- C5 counterexample: the source clears on `hashed_address.is_none()`
(trie/mod.rs line 454), not on `account_root`: a persisted checkpoint with
no `account_root` but a `hashed_address` is **not** cleared, refuting
"clears if and only if the loaded ProofCheckpoint has no account_root". -/
theorem C5_clear_counterexample :
    (DBTrieLoader.calculate_root_prologue ⟨none, some 1, none, none⟩
        ⟨[(5, [1])], []⟩).1 = ⟨[(5, [1])], []⟩ ∧
    (⟨none, some 1, none, none⟩ : DBTrieLoader.ProofCheckpointRaw).account_root = none ∧
    (DBTrieLoader.calculate_root_prologue ⟨none, some 1, none, none⟩
        ⟨[(5, [1])], []⟩).1.accountsTrie.isEmpty = false :=
  ⟨rfl, rfl, rfl⟩

/-- C5 (amended): `calculate_root` clears the `AccountsTrie` and
`StoragesTrie` tables if and only if the loaded checkpoint has no
`hashed_address`; the trie is opened from `account_root` exactly when that
field is present; and for checkpoints where `account_root` and
`hashed_address` are set together — the only ones the loader itself persists
— the original claim's condition coincides: the tables are cleared exactly
when `account_root` is absent. -/
theorem C5_clear_condition (cp : DBTrieLoader.ProofCheckpointRaw)
    (tables : DBTrieLoader.TrieTables) :
    (cp.hashed_address = none →
      (DBTrieLoader.calculate_root_prologue cp tables).1 = ⟨[], []⟩) ∧
    (∀ a, cp.hashed_address = some a →
      (DBTrieLoader.calculate_root_prologue cp tables).1 = tables) ∧
    (∀ r, cp.account_root = some r →
      (DBTrieLoader.calculate_root_prologue cp tables).2 = .fromRoot r) ∧
    (cp.account_root = none →
      (DBTrieLoader.calculate_root_prologue cp tables).2 = .fresh) ∧
    (cp.account_root.isSome = cp.hashed_address.isSome →
      (DBTrieLoader.calculate_root_prologue cp tables).1
        = if cp.account_root.isSome then tables else ⟨[], []⟩) := by
  obtain ⟨ar, ha, sr, sk⟩ := cp
  cases ha <;> cases ar <;>
    simp [DBTrieLoader.calculate_root_prologue]

/-- Witness for C5 at concrete checkpoints. -/
theorem C5_clear_condition_witness :
    ((DBTrieLoader.calculate_root_prologue ⟨some 9, some 1, none, none⟩
        ⟨[(5, [1])], []⟩).2 = .fromRoot 9) ∧
    ((DBTrieLoader.calculate_root_prologue ⟨none, none, none, none⟩
        ⟨[(5, [1])], []⟩).1 = ⟨[], []⟩) :=
  ⟨(C5_clear_condition ⟨some 9, some 1, none, none⟩ ⟨[(5, [1])], []⟩).2.2.1 9 rfl,
   (C5_clear_condition ⟨none, none, none, none⟩ ⟨[(5, [1])], []⟩).1 rfl⟩

/-- C6 counterexample: the account-trie adapter's `insert_map` has no
`EMPTY_ROOT` guard (trie/mod.rs lines 80-88): a batch keyed by `EMPTY_ROOT`
is written verbatim, refuting "no entry whose key equals EMPTY_ROOT is ever
written" for that adapter. -/
theorem C6_insert_map_empty_root_counterexample :
    HashDatabaseMut.insert_map_writes [(EMPTY_ROOT, [0])] = [(EMPTY_ROOT, [0])] ∧
    lookupKey (HashDatabaseMut.insert_map [] [(EMPTY_ROOT, [0])]) EMPTY_ROOT = some [0] :=
  ⟨rfl, rfl⟩

/-- C6 (amended): both `insert_map` implementations sort the batch by key
before writing; the dup-sorted storage-trie adapter additionally skips
`EMPTY_ROOT` keys, so it never adds an `EMPTY_ROOT` entry to the subtree —
but the account-trie adapter writes every key, `EMPTY_ROOT` included. -/
theorem C6_insert_map_sorted_and_empty_root (kv : List (Nat × Bytes))
    (sub : List StorageTrieEntry) (isUpdate : Bool) :
    (HashDatabaseMut.insert_map_writes kv).Pairwise (fun a b => a.1 ≤ b.1) ∧
    (DupHashDatabaseMut.insert_map_writes kv).Pairwise (fun a b => a.1 ≤ b.1) ∧
    (DupHashDatabaseMut.insert_map_writes kv).all (fun p => decide (p.1 ≠ EMPTY_ROOT)) = true ∧
    (DupHashDatabaseMut.insert_map isUpdate sub kv).filter
        (fun e => decide (e.hash = EMPTY_ROOT))
      = sub.filter (fun e => decide (e.hash = EMPTY_ROOT)) := by
  refine ⟨sortByKey_pairwise kv, ?_, ?_, ?_⟩
  · exact List.Pairwise.filter _ (sortByKey_pairwise kv)
  · simp [DupHashDatabaseMut.insert_map_writes, List.all_eq_true, List.mem_filter]
  · exact foldl_insertMapStep_filter_empty_root isUpdate (sortByKey kv) sub

/-- C7: `replace_account_root` returns the newly computed root and deletes
the `AccountsTrie` entry at `previous_root` exactly when the new root
differs, touching no other entry; `replace_storage_root` is analogous within
the account's `StoragesTrie` subtree, skips the deletion when
`previous_root = EMPTY_ROOT`, and touches no other account's subtree. -/
theorem C7_replace_root_frame (tbl : List (Nat × Bytes)) (sub : List StorageTrieEntry)
    (stbl : List (Nat × List StorageTrieEntry)) (address new_root previous_root : Nat)
    (hN : (tbl.map Prod.fst).Nodup)
    (hsub : sub.Pairwise (fun a b => a.hash < b.hash)) :
    (DBTrieLoader.replace_account_root tbl new_root previous_root).1 = new_root ∧
    (new_root = previous_root →
      (DBTrieLoader.replace_account_root tbl new_root previous_root).2 = tbl) ∧
    (new_root ≠ previous_root →
      lookupKey (DBTrieLoader.replace_account_root tbl new_root previous_root).2
        previous_root = none) ∧
    (∀ k, k ≠ previous_root →
      lookupKey (DBTrieLoader.replace_account_root tbl new_root previous_root).2 k
        = lookupKey tbl k) ∧
    (DBTrieLoader.replace_storage_root sub new_root previous_root).1 = new_root ∧
    (new_root = previous_root ∨ previous_root = EMPTY_ROOT →
      (DBTrieLoader.replace_storage_root sub new_root previous_root).2 = sub) ∧
    (new_root ≠ previous_root → previous_root ≠ EMPTY_ROOT →
      lookupEntryHash (DBTrieLoader.replace_storage_root sub new_root previous_root).2
        previous_root = none) ∧
    (∀ h, h ≠ previous_root →
      lookupEntryHash (DBTrieLoader.replace_storage_root sub new_root previous_root).2 h
        = lookupEntryHash sub h) ∧
    (∀ a, a ≠ address →
      lookupKey
        (DBTrieLoader.replace_storage_root_table stbl address new_root previous_root).2 a
        = lookupKey stbl a) := by
  refine ⟨?_, ?_, ?_, ?_, ?_, ?_, ?_, ?_, ?_⟩
  · unfold DBTrieLoader.replace_account_root
    split <;> rfl
  · intro h
    simp [DBTrieLoader.replace_account_root, h]
  · intro h
    simp only [DBTrieLoader.replace_account_root, if_pos h]
    exact lookupKey_deleteKeyExact_self tbl previous_root hN
  · intro k hk
    unfold DBTrieLoader.replace_account_root
    by_cases h : new_root = previous_root
    · simp [h]
    · simp only [if_pos h]
      exact lookupKey_deleteKeyExact_other tbl previous_root k hk
  · unfold DBTrieLoader.replace_storage_root
    split <;> rfl
  · intro h
    unfold DBTrieLoader.replace_storage_root
    rw [if_neg (by tauto)]
  · intro h1 h2
    simp only [DBTrieLoader.replace_storage_root, if_pos (And.intro h1 h2)]
    exact lookupEntryHash_deleteEntryAt_self sub previous_root hsub
  · intro h hne
    unfold DBTrieLoader.replace_storage_root
    by_cases hc : new_root ≠ previous_root ∧ previous_root ≠ EMPTY_ROOT
    · simp only [if_pos hc]
      exact lookupEntryHash_deleteEntryAt_other sub previous_root h hne
    · rw [if_neg hc]
  · intro a ha
    unfold DBTrieLoader.replace_storage_root_table
    exact lookupKey_map_update_other stbl address
      (fun s => (DBTrieLoader.replace_storage_root s new_root previous_root).2) a ha

/-- Witness for C7 at a concrete one-entry table and subtree. -/
theorem C7_replace_root_frame_witness :
    ([((9 : Nat), [(1 : Nat)])].map Prod.fst).Nodup ∧
    ([(⟨9, [1]⟩ : StorageTrieEntry)]).Pairwise (fun a b => a.hash < b.hash) ∧
    lookupKey (DBTrieLoader.replace_account_root [(9, [1])] 4 9).2 9 = none ∧
    lookupEntryHash (DBTrieLoader.replace_storage_root [⟨9, [1]⟩] 4 9).2 9 = none :=
  ⟨by decide, by decide,
   (C7_replace_root_frame [(9, [1])] [⟨9, [1]⟩] [] 0 4 9 (by decide) (by decide)).2.2.1
     (by decide),
   (C7_replace_root_frame [(9, [1])] [⟨9, [1]⟩] [] 0 4 9 (by decide) (by decide)).2.2.2.2.2.2.1
     (by decide) (by decide)⟩

/-- C8 counterexample: the `Ok(true)` / `Ok(false)` cases only apply after
the number-range admission checks: a block whose hash **is** the canonical
hash at its number but whose number is `≤ last_finalized_block` is rejected
with `PendingBlockIsFinalized`, not accepted with `Ok(true)` as the claim,
read unconditionally, states. -/
theorem C8_insert_block_counterexample :
    (⟨[], 0, ⟨[], [], [(3, 77)], 5⟩, 2, 1⟩ :
        BlockchainTree Unit).blockIndices.canonicalHash 3 = some 77 ∧
    insertBlockWithSenders (fun t _ _ => (.ok (), t)) (fun t _ => (.ok (), t))
      (⟨[], 0, ⟨[], [], [(3, 77)], 5⟩, 2, 1⟩ : BlockchainTree Unit) ⟨3, 77, 70⟩
      = (.error (.pendingBlockIsFinalized 3 77 5), ⟨[], 0, ⟨[], [], [(3, 77)], 5⟩, 2, 1⟩) :=
  ⟨rfl, rfl⟩

/-- C8 (amended): provided the block passes the number-range admission
checks (`last_finalized < number ≤ last_finalized + max_size`),
`insert_block_with_senders` returns `Ok(true)` without modifying the tree
when the block's hash is already in the block indices or matches the
canonical hash at its number; and — additionally provided the hash is not
already known — returns `Ok(false)` (not an error) without modifying the
tree when the parent is found neither in any tree chain nor in the
canonical chain. -/
theorem C8_insert_block_known_and_orphan {Ch : Type}
    (forkSideChain : BlockchainTree Ch → SealedBlockWithSenders → Nat → TreeStep Ch Unit)
    (forkCanonicalChain : BlockchainTree Ch → SealedBlockWithSenders → TreeStep Ch Unit)
    (t : BlockchainTree Ch) (block : SealedBlockWithSenders)
    (h1 : t.blockIndices.lastFinalizedBlock < block.number)
    (h2 : block.number ≤ t.blockIndices.lastFinalizedBlock + t.numOfSideChainMaxSize) :
    ((t.blockIndices.containsBlockHash block.hash = true ∨
        t.blockIndices.canonicalHash block.number = some block.hash) →
      insertBlockWithSenders forkSideChain forkCanonicalChain t block = (.ok true, t)) ∧
    (t.blockIndices.containsBlockHash block.hash = false →
      t.blockIndices.canonicalHash block.number ≠ some block.hash →
      t.blockIndices.getBlocksChainId block.parentHash = none →
      t.blockIndices.canonicalHash (block.number - 1) ≠ some block.parentHash →
      insertBlockWithSenders forkSideChain forkCanonicalChain t block = (.ok false, t)) := by
  constructor
  · intro hc
    simp only [insertBlockWithSenders]
    rw [if_neg (by omega), if_neg (by omega)]
    rcases hc with hc | hc
    · rw [if_pos hc]
    · by_cases hb : t.blockIndices.containsBlockHash block.hash
      · rw [if_pos hb]
      · rw [if_neg hb, if_pos hc]
  · intro hnb hnc hpar hcanpar
    simp only [insertBlockWithSenders]
    rw [if_neg (by omega), if_neg (by omega),
      if_neg (by simp [hnb]), if_neg hnc, hpar]
    simp only []
    rw [if_neg hcanpar]

/-- Witness for C8 at a concrete tree: a known canonical hash in range and
an orphan block in range. -/
theorem C8_insert_block_known_and_orphan_witness :
    ((5 : Nat) < 7 ∧ (7 : Nat) ≤ 5 + 2 ∧
      insertBlockWithSenders (fun t _ _ => (.ok (), t)) (fun t _ => (.ok (), t))
        (⟨[], 0, ⟨[], [], [(7, 77)], 5⟩, 2, 1⟩ : BlockchainTree Unit) ⟨7, 77, 70⟩
        = (.ok true, ⟨[], 0, ⟨[], [], [(7, 77)], 5⟩, 2, 1⟩)) ∧
    (insertBlockWithSenders (fun t _ _ => (.ok (), t)) (fun t _ => (.ok (), t))
        (⟨[], 0, ⟨[], [], [(7, 77)], 5⟩, 2, 1⟩ : BlockchainTree Unit) ⟨7, 99, 98⟩
        = (.ok false, ⟨[], 0, ⟨[], [], [(7, 77)], 5⟩, 2, 1⟩)) :=
  ⟨⟨by decide, by decide,
    (C8_insert_block_known_and_orphan _ _ _ _ (by decide) (by decide)).1
      (Or.inr (by decide))⟩,
   (C8_insert_block_known_and_orphan _ _ _ _ (by decide) (by decide)).2
     (by decide) (by decide) (by decide) (by decide)⟩

/-- C9: the `u64` subtraction `block.number - 1` at
blockchain_tree/mod.rs line 347 can never underflow: a block with
`number = 0` is rejected by the very first check with
`PendingBlockIsFinalized` (as `0 ≤ last_finalized_block` always holds), so
wherever the canonical-parent lookup is reached, `block.number ≥ 1`. -/
theorem C9_insert_block_no_underflow {Ch : Type}
    (forkSideChain : BlockchainTree Ch → SealedBlockWithSenders → Nat → TreeStep Ch Unit)
    (forkCanonicalChain : BlockchainTree Ch → SealedBlockWithSenders → TreeStep Ch Unit)
    (t : BlockchainTree Ch) (block : SealedBlockWithSenders) :
    (block.number = 0 →
      insertBlockWithSenders forkSideChain forkCanonicalChain t block
        = (.error (.pendingBlockIsFinalized block.number block.hash
            t.blockIndices.lastFinalizedBlock), t)) ∧
    (reachesCanonicalParentLookup t block → 1 ≤ block.number) := by
  constructor
  · intro h0
    simp only [insertBlockWithSenders]
    rw [if_pos (by omega)]
  · intro hr
    rcases hr with ⟨hgt, _⟩
    omega

/-- Witness for C9 at a concrete tree: a number-0 block is rejected, and a
concrete state reaching the parent lookup has number `≥ 1`. -/
theorem C9_insert_block_no_underflow_witness :
    (insertBlockWithSenders (fun t _ _ => (.ok (), t)) (fun t _ => (.ok (), t))
        (⟨[], 0, ⟨[], [], [(7, 77)], 5⟩, 2, 1⟩ : BlockchainTree Unit) ⟨0, 11, 10⟩
      = (.error (.pendingBlockIsFinalized 0 11 5), ⟨[], 0, ⟨[], [], [(7, 77)], 5⟩, 2, 1⟩)) ∧
    (1 : Nat) ≤ 7 :=
  ⟨(C9_insert_block_no_underflow _ _ _ _).1 (by decide),
   (C9_insert_block_no_underflow (fun t _ _ => (.ok (), t))
      (fun t _ => (.ok (), t)) (⟨[], 0, ⟨[], [], [(7, 77)], 5⟩, 2, 1⟩ : BlockchainTree Unit) ⟨7, 99, 98⟩).2
     (by refine ⟨by decide, by decide, by decide, by decide, by decide⟩)⟩

/-- C10: the read-write storage-trie adapter's `get` returns a node only
when the subtree holds an entry whose hash equals the requested key exactly;
when the dup-cursor seek lands on a neighbouring entry with a different
hash, `get` returns `None`. -/
theorem C10_dup_get_exact (sub : List StorageTrieEntry) (k : Nat) :
    (∀ n, DupHashDatabaseMut.get sub k = some n →
      ∃ e ∈ sub, e.hash = k ∧ e.node = n) ∧
    (∀ e, seekByKeySubkey sub k = some e → e.hash ≠ k →
      DupHashDatabaseMut.get sub k = none) := by
  constructor
  · intro n hget
    cases hseek : seekByKeySubkey sub k with
    | none =>
      simp only [DupHashDatabaseMut.get, hseek] at hget
      cases hget
    | some e =>
      simp only [DupHashDatabaseMut.get, hseek] at hget
      by_cases he : e.hash = k
      · rw [if_pos he] at hget
        injection hget with hn
        have hmem : e ∈ sub := by
          have h1 : e ∈ sub.dropWhile (fun x => decide (x.hash < k)) :=
            List.mem_of_mem_head? (by
              unfold seekByKeySubkey at hseek
              simp [hseek])
          exact (List.dropWhile_sublist _).subset h1
        exact ⟨e, hmem, he, hn⟩
      · rw [if_neg he] at hget
        cases hget
  · intro e hseek hne
    simp only [DupHashDatabaseMut.get, hseek]
    rw [if_neg hne]

/-- Witness for C10 at a concrete subtree. -/
theorem C10_dup_get_exact_witness :
    DupHashDatabaseMut.get [⟨3, [7]⟩] 3 = some [7] ∧
    ∃ e ∈ [(⟨3, [7]⟩ : StorageTrieEntry)], e.hash = 3 ∧ e.node = [7] :=
  ⟨rfl, (C10_dup_get_exact [⟨3, [7]⟩] 3).1 [7] rfl⟩
